import Mathlib

/-!
Shallow embedding of the call-graph core of `src/main.py` (Code-Map-Viewer).

The embedded part is the `Analyzer` class (an `ast.NodeVisitor`), the
resolution/filter loop that builds `filtered_calls`, and the super-edge
classification used when call edges are emitted.  Everything else in the
script (pyvis rendering, HTML/CSS templating, CLI handling) is presentation
glue outside the analysis core and is not modelled.
-/

mutual
/-- Python expressions, restricted to the node shapes `Analyzer.visit_Call`
inspects: `ast.Name`, `ast.Attribute` (value plus final attribute segment),
`ast.Call` (function expression plus argument list); `constant` stands for
any other expression node (a literal, a subscript, a lambda, ...), which the
visitor treats as an opaque leaf. -/
inductive Expr : Type where
  | name (id : String) : Expr
  | attribute (value : Expr) (attr : String) : Expr
  | call (func : Expr) (args : Exprs) : Expr
  | constant : Expr

inductive Exprs : Type where
  | nil : Exprs
  | cons (e : Expr) (es : Exprs) : Exprs
end

mutual
/-- Python statements, restricted to the node shapes the `Analyzer` visitors
dispatch on: `ast.ClassDef` (name and body), `ast.FunctionDef` (name, line
number, body) and a bare expression statement (through which
`generic_visit` reaches call expressions).  Other statement kinds only
forward `generic_visit` to the expressions and statements they contain and
are subsumed by these shapes. -/
inductive Stmt : Type where
  | classDef (name : String) (body : Stmts) : Stmt
  | functionDef (name : String) (lineno : Nat) (body : Stmts) : Stmt
  | exprStmt (e : Expr) : Stmt

inductive Stmts : Type where
  | nil : Stmts
  | cons (s : Stmt) (ss : Stmts) : Stmts
end

/-- The mutable state of `Analyzer` (src/main.py lines 26-33).  The Python
list `class_stack` grows at its end and `class_stack[-1]` is the innermost
class; here the head of the list is the innermost class (push is cons, pop
is tail).  `class_func_map` and `function_line_no` are insertion-ordered
dicts, modelled as association lists.  The `current_function` attribute is
absent until the first `visit_FunctionDef`; the guard
`not hasattr(self, "current_function") or self.current_function is None`
is modelled by an `Option` initialised to `none`. -/
structure AState where
  class_stack : List String
  function_names : List String
  class_func_map : List (String × List String)
  calls : List (String × String)
  super_calls : List (String × String)
  function_line_no : List (String × Nat)
  current_function : Option String
deriving Repr, DecidableEq

/-- The freshly constructed `Analyzer` (src/main.py `__init__`). -/
def initState : AState :=
  { class_stack := []
    function_names := []
    class_func_map := []
    calls := []
    super_calls := []
    function_line_no := []
    current_function := none }

/-- `self.class_func_map[class_name] = []` (src/main.py line 38): ordered
dict assignment — an existing key keeps its position and its value is reset
to the empty list, a new key is appended at the end. -/
def mapSetEmpty : List (String × List String) → String → List (String × List String)
  | [], k => [(k, [])]
  | (k', v) :: rest, k =>
      if k' = k then (k, []) :: rest else (k', v) :: mapSetEmpty rest k

/-- `self.class_func_map[cls].append(x)` (src/main.py line 45): append `x`
to the list stored at key `k`.  In Python a missing key would raise
`KeyError`; at the one call site the key was always inserted by
`visit_ClassDef` before any member is appended, so the missing-key branch
(returning the map unchanged) is unreachable. -/
def mapAppendMember : List (String × List String) → String → String → List (String × List String)
  | [], _, _ => []
  | (k', v) :: rest, k, x =>
      if k' = k then (k', v ++ [x]) :: rest else (k', v) :: mapAppendMember rest k x

/-- Ordered-dict lookup on the association-list model. -/
def mapLookup : List (String × List String) → String → Option (List String)
  | [], _ => none
  | (k', v) :: rest, k => if k' = k then some v else mapLookup rest k

/-- The super-dispatch receiver test of `visit_Call` (src/main.py lines
64-68): `node.func.value` is an `ast.Call` whose own function expression is
the bare name `super`. -/
def isSuperReceiver : Expr → Bool
  | .call (.name id) _ => id == "super"
  | _ => false

/-- Qualification rule of `visit_FunctionDef` (src/main.py lines 43-47):
inside a class the qualified name is `<innermost class>.<name>`, otherwise
the bare name. -/
def qualName (stk : List String) (n : String) : String :=
  match stk with
  | cls :: _ => cls ++ "." ++ n
  | [] => n

mutual
/-- `Analyzer.visit_Call` (src/main.py lines 57-79) together with the
`ast.NodeVisitor.generic_visit` dispatch that reaches it.  Visiting a
non-call expression generically visits its children (`attribute` descends
into its receiver, `name` and `constant` are leaves).  A call is ignored
when `current_function` is unset or `None`.  A bare-name target records
`(caller, id)` and then `generic_visit` descends into the function
expression and the arguments; a super-dispatch member target records the
pair in both `calls` and `super_calls` and returns without descending; any
other member target records `(caller, attr)` and descends (the descent into
the `attribute` function expression visits its receiver, so calls nested in
the receiver are still observed); any other target shape returns without
recording and without descending. -/
def visitExpr (s : AState) : Expr → AState
  | .name _ => s
  | .constant => s
  | .attribute value _ => visitExpr s value
  | .call func args =>
      match s.current_function with
      | none => s
      | some caller =>
          match func with
          | .name id =>
              visitExprs
                (visitExpr { s with calls := s.calls ++ [(caller, id)] } func) args
          | .attribute value attr =>
              if isSuperReceiver value then
                { s with calls := s.calls ++ [(caller, attr)]
                         super_calls := s.super_calls ++ [(caller, attr)] }
              else
                visitExprs
                  (visitExpr { s with calls := s.calls ++ [(caller, attr)] } func) args
          | _ => s

def visitExprs (s : AState) : Exprs → AState
  | .nil => s
  | .cons e es => visitExprs (visitExpr s e) es
end

mutual
/-- `Analyzer.visit_ClassDef` (src/main.py lines 35-40) and
`Analyzer.visit_FunctionDef` (lines 42-55), dispatched by statement shape;
an expression statement forwards `generic_visit` into its expression.
`visit_FunctionDef` appends the qualified name to the enclosing class's
member list unconditionally, records it in `function_names` (and its line
number) only when not already present, then visits the body with
`current_function` set to the qualified name and finally sets
`current_function` to `None`. -/
def visitStmt (s : AState) : Stmt → AState
  | .classDef cname body =>
      let s1 : AState :=
        { s with class_stack := cname :: s.class_stack
                 class_func_map := mapSetEmpty s.class_func_map cname }
      let s2 := visitStmts s1 body
      { s2 with class_stack := s2.class_stack.tail }
  | .functionDef fname lineno body =>
      let full_name := qualName s.class_stack fname
      let s1 : AState :=
        match s.class_stack with
        | cls :: _ =>
            { s with class_func_map := mapAppendMember s.class_func_map cls full_name }
        | [] => s
      let s2 : AState :=
        if full_name ∈ s1.function_names then s1
        else
          { s1 with function_names := s1.function_names ++ [full_name]
                    function_line_no := s1.function_line_no ++ [(full_name, lineno)] }
      let s3 := visitStmts { s2 with current_function := some full_name } body
      { s3 with current_function := none }
  | .exprStmt e => visitExpr s e

def visitStmts (s : AState) : Stmts → AState
  | .nil => s
  | .cons st sts => visitStmts (visitStmt s st) sts
end

/-- `analyzer = Analyzer(); analyzer.visit(tree)` (src/main.py lines 81-82):
visiting the module node generically visits its statement list. -/
def analyze (m : Stmts) : AState := visitStmts initState m

/-- The match test of the resolution loop (src/main.py line 97):
`fn.endswith("." + callee) or fn == callee`.  Python's `str.endswith` is a
suffix test, modelled on the character lists underlying the strings. -/
def matchesToken (callee fn : String) : Bool :=
  ("." ++ callee).data.isSuffixOf fn.data || fn == callee

/-- The inner `for fn in function_names: ... break` loop of the filter
(src/main.py lines 96-99): the first declaration matching the raw token, if
any. -/
def resolveCallee (fns : List String) (callee : String) : Option String :=
  match fns with
  | [] => none
  | fn :: rest => if matchesToken callee fn then some fn else resolveCallee rest callee

/-- The resolution/filter loop building `filtered_calls` (src/main.py lines
92-99): per raw call, skip when `caller == callee` (textual self-call
guard), otherwise emit `(caller, fn)` for the first matching declaration and
drop the call when none matches. -/
def filtered_calls (fns : List String) : List (String × String) → List (String × String)
  | [] => []
  | (caller, callee) :: rest =>
      if caller = callee then filtered_calls fns rest
      else
        match resolveCallee fns callee with
        | some fn => (caller, fn) :: filtered_calls fns rest
        | none => filtered_calls fns rest

/-- `callee.split(".")[-1]` (src/main.py line 176): the last
`"."`-separated segment of a name, i.e. the characters after the last dot
(the whole name when it has no dot). -/
def lastSegment (qname : String) : String :=
  ⟨(qname.data.reverse.takeWhile (fun c => c ≠ '.')).reverse⟩

/-- The super-edge test of the edge-emission loop (src/main.py line 176):
`(caller, callee.split(".")[-1]) in super_calls`. -/
def isSuperEdge (super_calls : List (String × String)) (caller callee : String) : Bool :=
  super_calls.contains (caller, lastSegment callee)

/-- The emitted call edges (src/main.py lines 175-179): each filtered call
becomes an edge `(caller, callee, is_super_dispatch)` where the flag is the
super-edge test above (a `True` flag is rendered as the dashed blue
`super()` edge). -/
def resolvedEdges (a : AState) : List (String × String × Bool) :=
  (filtered_calls a.function_names a.calls).map
    (fun e => (e.1, e.2, isSuperEdge a.super_calls e.1 e.2))

/-- The full pipeline from a parsed module to the emitted call edges. -/
def graphEdges (m : Stmts) : List (String × String × Bool) :=
  resolvedEdges (analyze m)

/-- The externally visible output of one analysis run: the declaration
sequence, the class-member map and the call-edge sequence. -/
def runAnalysis (m : Stmts) :
    List String × List (String × List String) × List (String × String × Bool) :=
  let a := analyze m
  (a.function_names, a.class_func_map, resolvedEdges a)

/-- Build a statement list from a Lean list (notation convenience for the
concrete example programs below). -/
def Stmts.ofList : List Stmt → Stmts
  | [] => .nil
  | s :: r => .cons s (Stmts.ofList r)

/-- Build an argument list from a Lean list. -/
def Exprs.ofList : List Expr → Exprs
  | [] => .nil
  | e :: r => .cons e (Exprs.ofList r)

/-- Specification-side: one step of first-wins de-duplication — keep the
accumulated sequence when the name is already present, otherwise append it
at the end. -/
def firstWinsStep (acc : List String) (n : String) : List String :=
  if n ∈ acc then acc else acc ++ [n]

/-- Specification-side: first-wins de-duplication of a name sequence,
keeping each name once at its first occurrence. -/
def firstWins (l : List String) : List String := l.foldl firstWinsStep []

mutual
/-- Specification-side: the raw sequence of qualified declaration names of
a statement, in depth-first lexical order, qualifying by the innermost
enclosing class (`stk` is the stack of enclosing class names, innermost
first).  Function definitions cannot occur inside expressions, so
expression statements contribute nothing. -/
def declSeqStmt (stk : List String) : Stmt → List String
  | .classDef cname body => declSeqStmts (cname :: stk) body
  | .functionDef fname _ body => qualName stk fname :: declSeqStmts stk body
  | .exprStmt _ => []

/-- Specification-side: the raw sequence of qualified declaration names of
a statement list, in depth-first lexical order. -/
def declSeqStmts (stk : List String) : Stmts → List String
  | .nil => []
  | .cons st sts => declSeqStmt stk st ++ declSeqStmts stk sts
end

/-- A class `A` whose method `run` calls the bare name `run()`:
`class A:` / `  def run(self): run()`. -/
def c1Tree : Stmts :=
  .ofList [.classDef "A" (.ofList
    [.functionDef "run" 2 (.ofList [.exprStmt (.call (.name "run") .nil)])])]

/-- A nested definition followed by a call inside the outer body:
`def h(): pass` / `def f():` / `  def g(): pass` / `  h()`. -/
def c2Tree : Stmts :=
  .ofList [.functionDef "h" 1 (.ofList []),
           .functionDef "f" 2 (.ofList
             [.functionDef "g" 3 (.ofList []),
              .exprStmt (.call (.name "h") .nil)])]

/-- Two classes with a same-named method and a free function calling it:
`class A: def run ...` / `class B: def run ...` / `def f(): run()`. -/
def c3Tree : Stmts :=
  .ofList [.classDef "A" (.ofList [.functionDef "run" 2 (.ofList [])]),
           .classDef "B" (.ofList [.functionDef "run" 4 (.ofList [])]),
           .functionDef "f" 6 (.ofList [.exprStmt (.call (.name "run") .nil)])]

/-- Two sibling free functions where `f` calls `g`. -/
def c4Tree : Stmts :=
  .ofList [.functionDef "f" 1 (.ofList [.exprStmt (.call (.name "g") .nil)]),
           .functionDef "g" 2 (.ofList [])]

/-- A super-dispatch call: `class A:` / `  def m2(self): super().m()` /
`  def m(self): pass`. -/
def c5Tree : Stmts :=
  .ofList [.classDef "A" (.ofList
    [.functionDef "m2" 2 (.ofList
       [.exprStmt (.call (.attribute (.call (.name "super") .nil) "m") .nil)]),
     .functionDef "m" 4 (.ofList [])])]

/-- A class declaring the same method name twice:
`class A:` / `  def m(self): pass` / `  def m(self): pass`. -/
def c7Tree : Stmts :=
  .ofList [.classDef "A" (.ofList
    [.functionDef "m" 2 (.ofList []), .functionDef "m" 3 (.ofList [])])]

/-- A module-level call placed after all function definitions:
`def f(): pass` / `f()`. -/
def c8Tree : Stmts :=
  .ofList [.functionDef "f" 1 (.ofList []), .exprStmt (.call (.name "f") .nil)]

/-- A small mixed program used to instantiate the determinism theorem. -/
def c9Tree : Stmts :=
  .ofList [.classDef "A" (.ofList [.functionDef "m" 2 (.ofList [])]),
           .functionDef "f" 3 (.ofList [.exprStmt (.call (.name "m") .nil)])]

/-- An analyzer state positioned inside a function body `f`, as
`visit_Call` would see it. -/
def c10State : AState := { initState with current_function := some "f" }

/-- An analyzer state positioned inside class `A` whose member list already
holds `A.m`, as `visit_FunctionDef` would see it on a duplicate method. -/
def c7State : AState :=
  { initState with class_stack := ["A"], class_func_map := [("A", ["A.m"])] }

mutual
/-- The expression visitor only records calls: it leaves the declaration
table, the class stack, the class-member map, the line-number table and the
current-function slot unchanged. -/
theorem visitExpr_frame (s : AState) (e : Expr) :
    (visitExpr s e).function_names = s.function_names ∧
    (visitExpr s e).class_stack = s.class_stack ∧
    (visitExpr s e).class_func_map = s.class_func_map ∧
    (visitExpr s e).function_line_no = s.function_line_no ∧
    (visitExpr s e).current_function = s.current_function := by
  cases e
  next id => simp [visitExpr]
  next v a => simpa [visitExpr] using visitExpr_frame s v
  next f args =>
    cases hc : s.current_function with
    | none => simp [visitExpr, hc]
    | some caller =>
        cases f
        next id =>
          have h2 := visitExprs_frame
            (visitExpr { s with calls := s.calls ++ [(caller, id)] } (Expr.name id)) args
          simp only [visitExpr, hc] at h2 ⊢
          simpa using h2
        next v a =>
          by_cases hs : isSuperReceiver v
          · simp [visitExpr, hc, hs]
          · have h1 := visitExpr_frame { s with calls := s.calls ++ [(caller, a)] } v
            have h2 := visitExprs_frame
              (visitExpr { s with calls := s.calls ++ [(caller, a)] } (Expr.attribute v a)) args
            simp only [visitExpr, hc, hs] at h2 ⊢
            simp_all
        next g gargs => simp [visitExpr, hc]
        next => simp [visitExpr, hc]
  next => simp [visitExpr]

/-- List version of `visitExpr_frame`. -/
theorem visitExprs_frame (s : AState) (es : Exprs) :
    (visitExprs s es).function_names = s.function_names ∧
    (visitExprs s es).class_stack = s.class_stack ∧
    (visitExprs s es).class_func_map = s.class_func_map ∧
    (visitExprs s es).function_line_no = s.function_line_no ∧
    (visitExprs s es).current_function = s.current_function := by
  cases es with
  | nil => simp [visitExprs]
  | cons e es' =>
      have h1 := visitExpr_frame s e
      have h2 := visitExprs_frame (visitExpr s e) es'
      simp only [visitExprs]
      exact ⟨h2.1.trans h1.1, h2.2.1.trans h1.2.1, h2.2.2.1.trans h1.2.2.1,
             h2.2.2.2.1.trans h1.2.2.2.1, h2.2.2.2.2.trans h1.2.2.2.2⟩
end

mutual
/-- The declarations recorded by a statement visit are the first-wins fold
of its depth-first declaration sequence over the table collected so far,
and the class stack is restored on return. -/
theorem visitStmt_decls (s : AState) (st : Stmt) :
    (visitStmt s st).function_names
      = (declSeqStmt s.class_stack st).foldl firstWinsStep s.function_names ∧
    (visitStmt s st).class_stack = s.class_stack := by
  cases st
  next cname body =>
    have IH1 : ∀ x : AState, (visitStmts x body).function_names
        = (declSeqStmts x.class_stack body).foldl firstWinsStep x.function_names :=
      fun x => (visitStmts_decls x body).1
    have IH2 : ∀ x : AState, (visitStmts x body).class_stack = x.class_stack :=
      fun x => (visitStmts_decls x body).2
    simp [visitStmt, declSeqStmt, IH1, IH2]
  next fname ln body =>
    have IH1 : ∀ x : AState, (visitStmts x body).function_names
        = (declSeqStmts x.class_stack body).foldl firstWinsStep x.function_names :=
      fun x => (visitStmts_decls x body).1
    have IH2 : ∀ x : AState, (visitStmts x body).class_stack = x.class_stack :=
      fun x => (visitStmts_decls x body).2
    rcases hstk : s.class_stack with _ | ⟨cls, rest⟩ <;>
      simp only [visitStmt, declSeqStmt, qualName, hstk, List.foldl_cons] <;>
      split <;>
      simp_all [firstWinsStep]
  next e =>
    have h := visitExpr_frame s e
    simp [visitStmt, declSeqStmt, h.1, h.2.1]

/-- List version of `visitStmt_decls`. -/
theorem visitStmts_decls (s : AState) (sts : Stmts) :
    (visitStmts s sts).function_names
      = (declSeqStmts s.class_stack sts).foldl firstWinsStep s.function_names ∧
    (visitStmts s sts).class_stack = s.class_stack := by
  cases sts with
  | nil => simp [visitStmts, declSeqStmts]
  | cons st sts' =>
      have h1 := visitStmt_decls s st
      have h2 := visitStmts_decls (visitStmt s st) sts'
      simp only [visitStmts, declSeqStmts, List.foldl_append]
      rw [h2.1, h2.2, h1.1, h1.2]
      exact ⟨rfl, rfl⟩
end

/-- One first-wins step preserves freedom from duplicates. -/
theorem firstWinsStep_nodup (acc : List String) (n : String) (h : acc.Nodup) :
    (firstWinsStep acc n).Nodup := by
  unfold firstWinsStep
  split
  · exact h
  next hm => simp [List.nodup_append, h, hm]

/-- Folding first-wins steps over any sequence preserves freedom from
duplicates. -/
theorem foldl_firstWinsStep_nodup (l : List String) :
    ∀ acc : List String, acc.Nodup → (l.foldl firstWinsStep acc).Nodup := by
  induction l with
  | nil => intro acc h; simpa using h
  | cons a l ih =>
      intro acc h
      simpa using ih (firstWinsStep acc a) (firstWinsStep_nodup acc a h)

/-- A resolved callee is drawn from the declaration table. -/
theorem resolveCallee_mem {fns : List String} {t fn : String}
    (h : resolveCallee fns t = some fn) : fn ∈ fns := by
  induction fns with
  | nil => simp [resolveCallee] at h
  | cons a rest ih =>
      rw [resolveCallee] at h
      split at h
      · obtain rfl : a = fn := by simpa using h
        exact List.mem_cons_self _ _
      · exact List.mem_cons_of_mem _ (ih h)

/-- The resolver returns the first match: the table decomposes around the
returned declaration with every earlier entry failing the match test. -/
theorem resolveCallee_first {fns : List String} {t fn : String}
    (h : resolveCallee fns t = some fn) :
    ∃ pre post, fns = pre ++ fn :: post ∧ matchesToken t fn = true ∧
      ∀ x ∈ pre, matchesToken t x = false := by
  induction fns with
  | nil => simp [resolveCallee] at h
  | cons a rest ih =>
      rw [resolveCallee] at h
      split at h
      next hm =>
        obtain rfl : a = fn := by simpa using h
        exact ⟨[], rest, by simp, hm, by simp⟩
      next hm =>
        obtain ⟨pre, post, hd, hfn, hpre⟩ := ih h
        refine ⟨a :: pre, post, by simp [hd], hfn, ?_⟩
        intro x hx
        rcases List.mem_cons.mp hx with rfl | hx'
        · simpa using hm
        · exact hpre x hx'

/-- Every filtered edge arises from some raw call whose caller differs
textually from the raw token and whose token resolves to the edge's
callee. -/
theorem filtered_calls_mem_src {fns : List String} {calls : List (String × String)}
    {e : String × String} (h : e ∈ filtered_calls fns calls) :
    ∃ t, (e.1, t) ∈ calls ∧ e.1 ≠ t ∧ resolveCallee fns t = some e.2 := by
  induction calls with
  | nil => simp [filtered_calls] at h
  | cons c rest ih =>
      obtain ⟨caller, callee⟩ := c
      rw [filtered_calls] at h
      split at h
      · obtain ⟨t, ht, hne, hr⟩ := ih h
        exact ⟨t, List.mem_cons_of_mem _ ht, hne, hr⟩
      next hne =>
        split at h
        next fn heq =>
          rcases List.mem_cons.mp h with rfl | h'
          · exact ⟨callee, List.mem_cons_self _ _, hne, by simpa using heq⟩
          · obtain ⟨t, ht, hne', hr'⟩ := ih h'
            exact ⟨t, List.mem_cons_of_mem _ ht, hne', hr'⟩
        next heq =>
          obtain ⟨t, ht, hne', hr'⟩ := ih h
          exact ⟨t, List.mem_cons_of_mem _ ht, hne', hr'⟩

/-- The callee of every filtered edge is a declaration-table entry. -/
theorem filtered_calls_callee_mem {fns : List String} {calls : List (String × String)}
    {e : String × String} (h : e ∈ filtered_calls fns calls) : e.2 ∈ fns := by
  obtain ⟨t, _, _, hr⟩ := filtered_calls_mem_src h
  exact resolveCallee_mem hr

/-- Looking up a key after appending to its member list yields the extended
list, and a lookup of an absent key stays absent. -/
theorem mapLookup_mapAppendMember (m : List (String × List String)) (k x : String) :
    mapLookup (mapAppendMember m k x) k = (mapLookup m k).map (fun l => l ++ [x]) := by
  induction m with
  | nil => simp [mapLookup, mapAppendMember]
  | cons p rest ih =>
      obtain ⟨k', v⟩ := p
      by_cases hk : k' = k <;> simp [mapLookup, mapAppendMember, hk, ih]

/-- C1 counterexample: in `class A: def run(self): run()` the raw call
`("A.run", "run")` passes the textual self-call guard (the strings differ),
yet the token `run` resolves to the first declaration ending in `.run`,
which is `A.run` itself — the emitted edge has `caller = callee`, refuting
the claimed self-call invariant. -/
theorem spec_c1_counterexample :
    ("A.run", "A.run", false) ∈ graphEdges c1Tree ∧ ("A.run" : String) ≠ "run" := by
  constructor
  · have h : graphEdges c1Tree = [("A.run", "A.run", false)] := rfl
    simp [h]
  · decide

/-- C1 (amended): the self-call guard is textual only — every emitted edge
arises from a raw call whose caller differs from the raw callee token, but
nothing prevents the token from resolving back to the caller's own
qualified name, so edges with `caller = callee` can be emitted. -/
theorem spec_c1_theorem (fns : List String) (calls : List (String × String))
    (e : String × String) (h : e ∈ filtered_calls fns calls) :
    ∃ t, (e.1, t) ∈ calls ∧ e.1 ≠ t ∧ resolveCallee fns t = some e.2 :=
  filtered_calls_mem_src h

/-- C1 witness: the amended theorem applied to the concrete edge
`("A.run", "A.run")` produced from the raw call `("A.run", "run")`. -/
theorem spec_c1_witness :
    ∃ t, (("A.run" : String), t) ∈ [(("A.run" : String), ("run" : String))] ∧
      ("A.run" : String) ≠ t ∧ resolveCallee ["A.run"] t = some "A.run" :=
  spec_c1_theorem ["A.run"] [("A.run", "run")] ("A.run", "A.run") (by decide)

/-- C2 counterexample: in `def h(): pass` / `def f(): def g(): pass; h()`
the call `h()` sits in `f`'s body lexically after the nested definition of
`g`, but `visit_FunctionDef` sets `current_function` to `None` (not back to
`f`) when it returns from `g`, so no raw call at all is recorded — the
claimed edge with caller `f` does not exist. -/
theorem spec_c2_counterexample :
    ("f", "h") ∉ (analyze c2Tree).calls ∧ (analyze c2Tree).calls = [] := by
  refine ⟨?_, rfl⟩
  decide

/-- C2 (amended): a nested definition overwrites the current-enclosing-
function slot for its subtree, but on return the slot is set to `none`
rather than restored to the enclosing function, so a call written lexically
after a nested definition and still inside the outer body is not recorded
at all. -/
theorem spec_c2_theorem :
    (∀ (s : AState) (fname : String) (ln : Nat) (body : Stmts),
        (visitStmt s (.functionDef fname ln body)).current_function = none) ∧
    (analyze c2Tree).calls = [] := by
  refine ⟨?_, rfl⟩
  intro s fname ln body
  simp [visitStmt]

/-- C3: the resolver returns the first declaration, in collection order,
whose qualified name matches the raw token (equality or suffix `.token`):
the table decomposes around the returned name with all earlier entries
failing the test.  On the concrete tie-break program (classes `A` and `B`
both declaring `run`, free `f` calling `run()`), the edge targets `A.run`,
the method of the class declared first. -/
theorem spec_c3_theorem :
    (∀ (fns : List String) (t fn : String), resolveCallee fns t = some fn →
        ∃ pre post, fns = pre ++ fn :: post ∧ matchesToken t fn = true ∧
          ∀ x ∈ pre, matchesToken t x = false) ∧
    graphEdges c3Tree = [("f", "A.run", false)] :=
  ⟨fun _ _ _ h => resolveCallee_first h, rfl⟩

/-- C3 witness: the first-match decomposition at the concrete table
`["A.run", "B.run"]` and token `run`. -/
theorem spec_c3_witness :
    ∃ pre post, ["A.run", "B.run"] = pre ++ "A.run" :: post ∧
      matchesToken "run" "A.run" = true ∧ ∀ x ∈ pre, matchesToken "run" x = false :=
  spec_c3_theorem.1 ["A.run", "B.run"] "run" "A.run" (by decide)

/-- C4: the callee of every emitted edge is a qualified name present in the
collected declaration table — no dangling edges. -/
theorem spec_c4_theorem (m : Stmts) (e : String × String × Bool)
    (h : e ∈ graphEdges m) : e.2.1 ∈ (analyze m).function_names := by
  rw [graphEdges, resolvedEdges] at h
  obtain ⟨p, hp, rfl⟩ := List.mem_map.mp h
  simpa using filtered_calls_callee_mem hp

/-- C4 witness: on `def f(): g()` / `def g(): pass` the edge `(f, g)` has
its callee in the declaration table. -/
theorem spec_c4_witness : "g" ∈ (analyze c4Tree).function_names :=
  spec_c4_theorem c4Tree ("f", "g", false) (by decide)

/-- C5: on `class A:` with `def m2(self): super().m()` and `def m`, the
analysis records the single raw call `(A.m2, m)` with the super flag set,
and emits exactly the edge `(A.m2, A.m)` classified as super dispatch. -/
theorem spec_c5_theorem :
    (analyze c5Tree).calls = [("A.m2", "m")] ∧
    (analyze c5Tree).super_calls = [("A.m2", "m")] ∧
    graphEdges c5Tree = [("A.m2", "A.m", true)] :=
  ⟨rfl, rfl, rfl⟩

/-- C6: for every input tree the collected declaration sequence is the
first-wins de-duplication of the depth-first sequence of qualified
declaration names — each name appears exactly once, at its first lexical
occurrence — and in particular it contains no duplicates. -/
theorem spec_c6_theorem (m : Stmts) :
    (analyze m).function_names = firstWins (declSeqStmts [] m) ∧
    (analyze m).function_names.Nodup := by
  have h := (visitStmts_decls initState m).1
  have h' : (analyze m).function_names = (declSeqStmts [] m).foldl firstWinsStep [] := by
    simpa [analyze, initState] using h
  exact ⟨h', h' ▸ foldl_firstWinsStep_nodup _ _ (List.nodup_nil)⟩

/-- C7 counterexample: in `class A:` declaring `def m` twice, the member
list of `A` is `["A.m", "A.m"]` — `visit_FunctionDef` appends to the class
member list before (and independently of) the first-wins check, so the list
contains a duplicate, refuting the ordered-set claim. -/
theorem spec_c7_counterexample :
    (analyze c7Tree).class_func_map = [("A", ["A.m", "A.m"])] ∧
    ¬ (["A.m", "A.m"] : List String).Nodup := by
  refine ⟨rfl, ?_⟩
  decide

/-- C7 (amended): every method definition appends its qualified name to the
enclosing class's member list unconditionally — even when the name is
already present — so member lists may contain duplicates; only the
declaration sequence `function_names` is de-duplicated. -/
theorem spec_c7_theorem (s : AState) (cname : String) (rest : List String)
    (fname : String) (ln : Nat) (h : s.class_stack = cname :: rest) :
    mapLookup ((visitStmt s (.functionDef fname ln .nil)).class_func_map) cname
      = (mapLookup s.class_func_map cname).map (fun l => l ++ [cname ++ "." ++ fname]) := by
  simp only [visitStmt, h, qualName, visitStmts]
  split <;> simp [mapLookup_mapAppendMember]

/-- C7 witness: with `A.m` already recorded as a member of `A`, processing
a second `def m` yields the duplicated member list `["A.m", "A.m"]`. -/
theorem spec_c7_witness :
    mapLookup ((visitStmt c7State (.functionDef "m" 3 .nil)).class_func_map) "A"
      = (mapLookup c7State.class_func_map "A").map (fun l => l ++ ["A" ++ "." ++ "m"]) :=
  spec_c7_theorem c7State "A" [] "m" 3 rfl

/-- C8: a call expression visited while the current-function slot is `none`
(i.e. at module scope, outside any function body) records nothing and
produces no raw call; concretely, a module-level call placed after all
function definitions leaves the raw-call list empty. -/
theorem spec_c8_theorem :
    (∀ (s : AState) (f : Expr) (args : Exprs), s.current_function = none →
        visitExpr s (.call f args) = s) ∧
    (analyze c8Tree).calls = [] := by
  refine ⟨?_, rfl⟩
  intro s f args h
  simp [visitExpr, h]

/-- C8 witness: the fresh analyzer state has no current function, and
visiting a module-level call leaves it unchanged. -/
theorem spec_c8_witness :
    initState.current_function = none ∧
    visitExpr initState (.call (.name "f") .nil) = initState :=
  ⟨rfl, spec_c8_theorem.1 initState (.name "f") .nil rfl⟩

/-- C9: the analysis is deterministic — its output (declaration sequence,
class-member map and edge sequence) is a pure function of the input tree
alone, so two runs over equal trees produce identical results. -/
theorem spec_c9_theorem (m₁ m₂ : Stmts) (h : m₁ = m₂) :
    runAnalysis m₁ = runAnalysis m₂ := by
  rw [h]

/-- C9 witness: two runs over the same concrete tree coincide. -/
theorem spec_c9_witness : runAnalysis c9Tree = runAnalysis c9Tree :=
  spec_c9_theorem c9Tree c9Tree rfl

/-- C10: a super-dispatch call records exactly its own raw call and does
not descend into its argument list (or the receiver's argument list), and a
call whose target is neither a bare name nor a member access (here: calling
the result of a call, or of any other expression shape) records nothing and
does not descend either — calls nested inside such a call's arguments
produce no raw call. -/
theorem spec_c10_theorem :
    (∀ (s : AState) (caller attr : String) (recvArgs args : Exprs),
        s.current_function = some caller →
        visitExpr s (.call (.attribute (.call (.name "super") recvArgs) attr) args)
          = { s with calls := s.calls ++ [(caller, attr)]
                     super_calls := s.super_calls ++ [(caller, attr)] }) ∧
    (∀ (s : AState) (g : Expr) (gargs args : Exprs),
        visitExpr s (.call (.call g gargs) args) = s) ∧
    (∀ (s : AState) (args : Exprs), visitExpr s (.call .constant args) = s) := by
  refine ⟨?_, ?_, ?_⟩
  · intro s caller attr recvArgs args h
    simp [visitExpr, h, isSuperReceiver]
  · intro s g gargs args
    cases hc : s.current_function <;> simp [visitExpr, hc]
  · intro s args
    cases hc : s.current_function <;> simp [visitExpr, hc]

/-- C10 witness: inside `f`, visiting `super().m(g())` records only the
super call `(f, m)` — the nested call `g()` in the argument list
contributes nothing. -/
theorem spec_c10_witness :
    visitExpr c10State
        (.call (.attribute (.call (.name "super") .nil) "m")
               (.cons (.call (.name "g") .nil) .nil))
      = { c10State with calls := c10State.calls ++ [("f", "m")]
                        super_calls := c10State.super_calls ++ [("f", "m")] } :=
  spec_c10_theorem.1 c10State "f" "m" .nil (.cons (.call (.name "g") .nil) .nil) rfl
